import Mathlib

/-!
Verification of the STREAM transport layer of the `age` file-encryption
repository (`src/age/src/primitives/stream.rs`) and of the decryption
orchestrator (`src/age/src/protocol/decryptor.rs`).

The chunked AEAD transport is embedded shallowly: byte sequences are
`List Nat` (each element a byte value), machine integers are `Nat` with the
bounds that the Rust types impose made explicit, fallible operations return
`Option` or `Except`.  The ChaCha20-Poly1305 primitive itself lives in an
external crate and is out of scope per the specification; it is abstracted as
an `Aead` structure carrying exactly the contract the specification states
(ciphertext = plaintext plus a 16-byte tag; decryption with the encryption
nonce recovers the plaintext; decryption under a different nonce fails
authentication).  A concrete executable instance `toyAead` witnesses that the
contract is satisfiable and is used to evaluate the model on concrete inputs.
-/

namespace AgeStream

/-- `CHUNK_SIZE` from stream.rs: 64 KiB plaintext chunks. -/
def CHUNK_SIZE : Nat := 64 * 1024

/-- `TAG_SIZE` from stream.rs: the Poly1305 tag length. -/
def TAG_SIZE : Nat := 16

/-- `ENCRYPTED_CHUNK_SIZE` from stream.rs. -/
def ENCRYPTED_CHUNK_SIZE : Nat := CHUNK_SIZE + TAG_SIZE

/-- `COUNTER_INCR` from the `StreamPrimitive` impl in stream.rs: `1 << 8`. -/
def COUNTER_INCR : Nat := 1 <<< 8

/-- `COUNTER_MAX` from the `StreamPrimitive` impl in stream.rs:
`0xffffffff_ffffffff_ffffff00`. -/
def COUNTER_MAX : Nat := 0xffffffffffffffffffffff00

/-- Big-endian byte encoding on `k` bytes (the value is taken modulo `2^(8k)`),
modelling `u128::to_be_bytes` when `k = 16`. -/
def beBytes : Nat → Nat → List Nat
  | 0, _ => []
  | k + 1, x => beBytes k (x / 256) ++ [x % 256]

/-- The nonce byte computation of `Stream::aead_nonce`, without the counter
guard: the low 12 bytes of the big-endian `u128` `position | last_block`. -/
def nonceBytes (position : Nat) (last_block : Bool) : List Nat :=
  (beBytes 16 (position ||| (if last_block then 1 else 0))).drop 4

/-- `Stream::aead_nonce` from stream.rs: fails when `position > COUNTER_MAX`,
otherwise yields the 12 nonce bytes. -/
def aead_nonce (position : Nat) (last_block : Bool) : Option (List Nat) :=
  if COUNTER_MAX < position then none else some (nonceBytes position last_block)

/-- Modelled from the spec: the AEAD collaborator (ChaCha20-Poly1305 from an
external crate, out of scope per §1 of the specification).  §4.1 gives its
contract: encryption extends the buffer by a 16-byte authentication tag,
decryption with the matching nonce returns the plaintext, and decryption under
any other nonce fails authentication.  Associated data is always empty in this
protocol and is therefore omitted. -/
structure Aead where
  enc : List Nat → List Nat → List Nat
  dec : List Nat → List Nat → Option (List Nat)
  enc_length : ∀ n pt, n.length = 12 → (enc n pt).length = pt.length + TAG_SIZE
  dec_enc : ∀ n pt, n.length = 12 → dec n (enc n pt) = some pt
  dec_wrong_nonce : ∀ n n' pt, n.length = 12 → n'.length = 12 → n ≠ n' →
    dec n' (enc n pt) = none

/-- A concrete AEAD instance used to run the model: the "ciphertext" is the
plaintext followed by a 16-byte tag that records the nonce. -/
def toyEnc (n pt : List Nat) : List Nat := pt ++ (n ++ [0, 0, 0, 0])

/-- Decryption for `toyEnc`: check that the trailing 16 bytes are the tag for
this nonce, and strip them. -/
def toyDec (n ct : List Nat) : Option (List Nat) :=
  if 16 ≤ ct.length ∧ ct.drop (ct.length - 16) = n ++ [0, 0, 0, 0] then
    some (ct.take (ct.length - 16))
  else none

theorem toyEnc_length (n pt : List Nat) (h : n.length = 12) :
    (toyEnc n pt).length = pt.length + TAG_SIZE := by
  simp [toyEnc, h, TAG_SIZE]

theorem toyDec_toyEnc (n pt : List Nat) (h : n.length = 12) :
    toyDec n (toyEnc n pt) = some pt := by
  have hlen : (toyEnc n pt).length = pt.length + 16 := toyEnc_length n pt h
  have h16 : 16 ≤ (toyEnc n pt).length := by omega
  have hsub : (toyEnc n pt).length - 16 = pt.length := by omega
  have hdrop : (toyEnc n pt).drop pt.length = n ++ [0, 0, 0, 0] := by
    rw [toyEnc]
    exact List.drop_left pt (n ++ [0, 0, 0, 0])
  have htake : (toyEnc n pt).take pt.length = pt := by
    rw [toyEnc]
    exact List.take_left pt (n ++ [0, 0, 0, 0])
  simp [toyDec, hsub, hdrop, htake, h16]

theorem toyDec_wrong (n n' pt : List Nat) (_h : n.length = 12) (_h' : n'.length = 12)
    (hne : n ≠ n') : toyDec n' (toyEnc n pt) = none := by
  have hlen : (toyEnc n pt).length = pt.length + 16 := by simp [toyEnc, _h]
  have hsub : (toyEnc n pt).length - 16 = pt.length := by omega
  have hdrop : (toyEnc n pt).drop pt.length = n ++ [0, 0, 0, 0] := by
    rw [toyEnc]
    exact List.drop_left pt (n ++ [0, 0, 0, 0])
  have : ¬ ((toyEnc n pt).drop ((toyEnc n pt).length - 16) = n' ++ [0, 0, 0, 0]) := by
    rw [hsub, hdrop]
    intro hcontra
    exact hne (List.append_cancel_right hcontra)
  simp [toyDec, this]

/-- The concrete AEAD instance. -/
def toyAead : Aead :=
  { enc := toyEnc
    dec := toyDec
    enc_length := toyEnc_length
    dec_enc := toyDec_toyEnc
    dec_wrong_nonce := toyDec_wrong }

theorem beBytes_length (k x : Nat) : (beBytes k x).length = k := by
  induction k generalizing x with
  | zero => rfl
  | succ k ih => simp [beBytes, ih]

theorem beBytes_split (a b x : Nat) :
    beBytes (a + b) x = beBytes a (x / 2 ^ (8 * b)) ++ beBytes b (x % 2 ^ (8 * b)) := by
  induction b generalizing x with
  | zero => simp [beBytes]
  | succ b ih =>
    have h1 : a + (b + 1) = (a + b) + 1 := by omega
    rw [h1]
    show beBytes (a + b) (x / 256) ++ [x % 256] = _
    rw [ih (x / 256)]
    have hpow : (2 : Nat) ^ (8 * (b + 1)) = 256 * 2 ^ (8 * b) := by
      rw [show 8 * (b + 1) = 8 + 8 * b by ring, pow_add]
      norm_num
    have hdiv : x / 256 / 2 ^ (8 * b) = x / 2 ^ (8 * (b + 1)) := by
      rw [Nat.div_div_eq_div_mul, hpow]
    have hmod : x / 256 % 2 ^ (8 * b) = x % 2 ^ (8 * (b + 1)) / 256 := by
      rw [hpow, Nat.mod_mul_right_div_self]
    have hlow : x % 256 = x % 2 ^ (8 * (b + 1)) % 256 := by
      rw [Nat.mod_mod_of_dvd]
      exact ⟨2 ^ (8 * b), hpow⟩
    rw [hdiv, hmod, hlow]
    show _ = beBytes a _ ++ (beBytes b _ ++ [_])
    rw [List.append_assoc]

theorem lor_eq_add_of_mod (a b : Nat) (ha : a % 256 = 0) (hb : b < 256) :
    a ||| b = a + b := by
  obtain ⟨q, rfl⟩ : ∃ q, a = 2 ^ 8 * q := ⟨a / 256, by omega⟩
  exact (Nat.mul_add_lt_is_or hb _).symm

/-- Characterization of the nonce bytes for in-range chunk positions: an
11-byte big-endian chunk counter (the position divided by 256) followed by the
last-block flag byte. -/
theorem nonceBytes_eq (pos : Nat) (last : Bool) (hmod : pos % 256 = 0)
    (hmax : pos ≤ COUNTER_MAX) :
    nonceBytes pos last = beBytes 11 (pos / 256) ++ [if last then 1 else 0] := by
  have hflag : (if last then 1 else 0) < 256 := by cases last <;> simp
  have hor : pos ||| (if last then 1 else 0) = pos + (if last then 1 else 0) :=
    lor_eq_add_of_mod _ _ hmod hflag
  have hlt : pos + (if last then 1 else 0) < 2 ^ 96 := by
    have : COUNTER_MAX = 2 ^ 96 - 256 := by norm_num [COUNTER_MAX]
    omega
  have hsplit : beBytes 16 (pos + (if last then 1 else 0)) =
      beBytes 4 0 ++ beBytes 12 (pos + (if last then 1 else 0)) := by
    have h16 : (16 : Nat) = 4 + 12 := rfl
    rw [h16, beBytes_split]
    have hd : (pos + (if last then 1 else 0)) / 2 ^ (8 * 12) = 0 :=
      Nat.div_eq_of_lt (by norm_num at hlt ⊢; omega)
    have hm : (pos + (if last then 1 else 0)) % 2 ^ (8 * 12) = pos + (if last then 1 else 0) :=
      Nat.mod_eq_of_lt (by norm_num at hlt ⊢; omega)
    rw [hd, hm]
  have hlen4 : (beBytes 4 0).length = 4 := beBytes_length 4 0
  have h12 : beBytes 12 (pos + (if last then 1 else 0)) =
      beBytes 11 ((pos + (if last then 1 else 0)) / 256) ++
        [(pos + (if last then 1 else 0)) % 256] := rfl
  have hq : (pos + (if last then 1 else 0)) / 256 = pos / 256 := by omega
  have hr : (pos + (if last then 1 else 0)) % 256 = (if last then 1 else 0) := by omega
  rw [nonceBytes, hor, hsplit, List.drop_left' hlen4, h12, hq, hr]

theorem nonceBytes_length (pos : Nat) (last : Bool) : (nonceBytes pos last).length = 12 := by
  simp [nonceBytes, beBytes_length]

/-- The two flag variants of the nonce at one chunk position differ. -/
theorem nonceBytes_flag_ne (pos : Nat) (hmod : pos % 256 = 0) (hmax : pos ≤ COUNTER_MAX) :
    nonceBytes pos false ≠ nonceBytes pos true := by
  rw [nonceBytes_eq pos false hmod hmax, nonceBytes_eq pos true hmod hmax]
  intro h
  have := List.append_inj_right h (by rfl)
  simp at this

/-- `Stream::encrypt_in_place` from stream.rs: derive the nonce (failing past
`COUNTER_MAX`) and encrypt. -/
def encrypt_in_place (A : Aead) (position : Nat) (last_block : Bool)
    (buffer : List Nat) : Option (List Nat) :=
  (aead_nonce position last_block).map (fun n => A.enc n buffer)

/-- `Stream::decrypt_in_place` from stream.rs: derive the nonce (failing past
`COUNTER_MAX`) and decrypt, failing on authentication failure. -/
def decrypt_in_place (A : Aead) (position : Nat) (last_block : Bool)
    (buffer : List Nat) : Option (List Nat) :=
  (aead_nonce position last_block).bind (fun n => A.dec n buffer)

/-- Modelled from the spec: `Encryptor::encrypt_next_in_place` of the external
`aead::stream` crate — encrypt at the current position with the last-block
flag clear, then advance the position by `COUNTER_INCR` (§3: stride 256). -/
def encrypt_next (A : Aead) (pos : Nat) (pt : List Nat) : Option (List Nat × Nat) :=
  (encrypt_in_place A pos false pt).map (fun ct => (ct, pos + COUNTER_INCR))

/-- Modelled from the spec: `Encryptor::encrypt_last_in_place` of the external
`aead::stream` crate — encrypt at the current position with the flag set. -/
def encrypt_last (A : Aead) (pos : Nat) (pt : List Nat) : Option (List Nat) :=
  encrypt_in_place A pos true pt

/-- Modelled from the spec: `Decryptor::decrypt_next_in_place` of the external
`aead::stream` crate — decrypt as a non-final chunk; the position advances
only on success. -/
def decrypt_next (A : Aead) (pos : Nat) (ct : List Nat) : Option (List Nat × Nat) :=
  (decrypt_in_place A pos false ct).map (fun pt => (pt, pos + COUNTER_INCR))

/-- Modelled from the spec: `Decryptor::decrypt_last_in_place` of the external
`aead::stream` crate — decrypt as the final chunk at the current position. -/
def decrypt_last (A : Aead) (pos : Nat) (ct : List Nat) : Option (List Nat) :=
  decrypt_in_place A pos true ct

/-!
## StreamWriter

`<StreamWriter as Write>::write` (stream.rs lines 224-252).  Writer state is
the cipher position `pos`, the accumulation buffer `chunk`, and the bytes
already written to the underlying sink `sink`.  The result carries the new
state together with the number of bytes consumed (the loop accumulates
`bytes_written`; here the count is summed on the way out of the recursion,
which yields the same total).  `none` models the (theoretical) counter
overflow error path.
-/

def writeLoop (A : Aead) (pos : Nat) (chunk sink buf : List Nat) :
    Option (Nat × List Nat × List Nat × Nat) :=
  if hb : buf = [] then some (pos, chunk, sink, 0)
  else
    let to_write := min (CHUNK_SIZE - chunk.length) buf.length
    let chunk' := chunk ++ buf.take to_write
    let buf' := buf.drop to_write
    -- Only encrypt the chunk if we have more data to write, as the last
    -- chunk must be written in finish().
    if buf' = [] then some (pos, chunk', sink, to_write)
    else
      match encrypt_next A pos chunk' with
      | none => none
      | some (ct, pos') =>
        match writeLoop A pos' [] (sink ++ ct) buf' with
        | none => none
        | some (p, c, s, w) => some (p, c, s, to_write + w)
termination_by (buf.length, chunk.length)
decreasing_by
  rcases Nat.eq_zero_or_pos (min (CHUNK_SIZE - chunk.length) buf.length) with h0 | hpos
  · have h1 : (List.drop (min (CHUNK_SIZE - chunk.length) buf.length) buf).length
        = buf.length := by simp [h0]
    rw [h1]
    apply Prod.Lex.right
    have hb' : buf.length ≠ 0 := by
      intro h
      exact hb (List.eq_nil_of_length_eq_zero h)
    have hsub : CHUNK_SIZE - chunk.length = 0 := by
      rcases Nat.min_eq_zero_iff.mp h0 with h | h
      · exact h
      · omega
    have hc : (0 : Nat) < CHUNK_SIZE := by norm_num [CHUNK_SIZE]
    simp only [List.length_nil]
    omega
  · apply Prod.Lex.left
    simp only [List.length_drop]
    have hb' : buf.length ≠ 0 := by
      intro h
      exact hb (List.eq_nil_of_length_eq_zero h)
    omega

/-- `StreamWriter::finish` (stream.rs lines 210-220): encrypt the held buffer
as the final chunk and flush it to the sink; returns the sink contents. -/
def streamFinish (A : Aead) (pos : Nat) (chunk sink : List Nat) : Option (List Nat) :=
  (encrypt_last A pos chunk).map (fun ct => sink ++ ct)

/-- One `write` call consuming `data` from state `(pos, [], sink)`, followed
by `finish`; returns the final sink contents. -/
def encryptAllFrom (A : Aead) (pos : Nat) (sink data : List Nat) : Option (List Nat) :=
  match writeLoop A pos [] sink data with
  | none => none
  | some (p, chunk, s, _) => streamFinish A p chunk s

/-- A full encryption pass: `Stream::encrypt`, one `write` of all of `data`
(the source `write` consumes its whole input), then `finish`. -/
def encryptAll (A : Aead) (data : List Nat) : Option (List Nat) :=
  encryptAllFrom A 0 [] data

/-!
## StreamReader chunk decryption and full consumption

`StreamReader::decrypt_chunk` (stream.rs lines 388-443).  Note the truncation
check for an exhausted stream is commented out in the source (the `TODO`
block), so an empty pull is simply `Ok` there; the model reproduces that.
-/

def decrypt_chunk (A : Aead) (pos : Nat) (bytes : List Nat) :
    Except String (Option (List Nat) × Nat) :=
  if bytes = [] then
    -- TODO block in the source is commented out: no truncation error here.
    .ok (none, pos)
  else
    -- This check works for all cases except when the age file is an integer
    -- multiple of the chunk size. In that case, we try decrypting twice on a
    -- decryption failure.
    let last := bytes.length < ENCRYPTED_CHUNK_SIZE
    if last then
      match decrypt_last A pos bytes with
      | some pt => .ok (some pt, pos)
      | none => .error "last chunk has been processed"
    else
      match decrypt_next A pos bytes with
      | some (pt, pos') => .ok (some pt, pos')
      | none =>
        match decrypt_last A pos bytes with
        | some pt => .ok (some pt, pos)
        | none => .error "last chunk has been processed"

/-- Full consumption (`read_to_end`) of a stream through repeated
`<StreamReader as Read>::read` calls, at chunk granularity: each read with no
chunk resident pulls up to `ENCRYPTED_CHUNK_SIZE` bytes from the source,
decrypts them via `decrypt_chunk`, and the decrypted bytes are then served out
by `read_from_chunk` before the next pull.  A pull of zero bytes yields a
0-byte read, which terminates `read_to_end` successfully. -/
def readToEnd (A : Aead) (pos : Nat) (src acc : List Nat) : Except String (List Nat) :=
  if h : src = [] then .ok acc
  else
    match decrypt_chunk A pos (src.take ENCRYPTED_CHUNK_SIZE) with
    | .error e => .error e
    | .ok (c, pos') => readToEnd A pos' (src.drop ENCRYPTED_CHUNK_SIZE) (acc ++ c.getD [])
termination_by src.length
decreasing_by
  simp only [List.length_drop]
  have : src.length ≠ 0 := by
    intro h0
    exact h (List.eq_nil_of_length_eq_zero h0)
  have : (0 : Nat) < ENCRYPTED_CHUNK_SIZE := by norm_num [ENCRYPTED_CHUNK_SIZE, CHUNK_SIZE, TAG_SIZE]
  omega

/-- The shape of the ciphertext the writer emits: full 64 KiB chunks encrypted
with the flag clear at positions 0, 256, 512, …, and a final (possibly full,
possibly empty) chunk encrypted with the flag set. -/
def streamCiphertext (A : Aead) (pos : Nat) (data : List Nat) : List Nat :=
  if h : CHUNK_SIZE < data.length then
    A.enc (nonceBytes pos false) (data.take CHUNK_SIZE) ++
      streamCiphertext A (pos + COUNTER_INCR) (data.drop CHUNK_SIZE)
  else
    A.enc (nonceBytes pos true) data
termination_by data.length
decreasing_by
  simp only [List.length_drop]
  have : (0 : Nat) < CHUNK_SIZE := by norm_num [CHUNK_SIZE]
  omega

/-!
## Writer lemmas
-/

theorem encrypt_next_eq (A : Aead) (pos : Nat) (pt : List Nat) (h : pos ≤ COUNTER_MAX) :
    encrypt_next A pos pt = some (A.enc (nonceBytes pos false) pt, pos + COUNTER_INCR) := by
  have : ¬ COUNTER_MAX < pos := by omega
  simp [encrypt_next, encrypt_in_place, aead_nonce, this]

theorem encrypt_last_eq (A : Aead) (pos : Nat) (pt : List Nat) (h : pos ≤ COUNTER_MAX) :
    encrypt_last A pos pt = some (A.enc (nonceBytes pos true) pt) := by
  have : ¬ COUNTER_MAX < pos := by omega
  simp [encrypt_last, encrypt_in_place, aead_nonce, this]

/-- One-step unfolding equation for `writeLoop`. -/
theorem writeLoop_eq (A : Aead) (pos : Nat) (ch sink buf : List Nat) :
    writeLoop A pos ch sink buf =
      if buf = [] then some (pos, ch, sink, 0)
      else
        let to_write := min (CHUNK_SIZE - ch.length) buf.length
        if buf.drop to_write = [] then some (pos, ch ++ buf.take to_write, sink, to_write)
        else
          match encrypt_next A pos (ch ++ buf.take to_write) with
          | none => none
          | some (ct, pos') =>
            match writeLoop A pos' [] (sink ++ ct) (buf.drop to_write) with
            | none => none
            | some (p, c, s, w) => some (p, c, s, to_write + w) := by
  rw [writeLoop]
  by_cases hb : buf = [] <;> simp [hb]

/-- A `write` whose input fits in the remaining buffer space only accumulates:
nothing is encrypted, the sink is untouched, and the whole input is consumed —
even when the buffer ends up exactly full. -/
theorem writeLoop_no_flush (A : Aead) (pos : Nat) (ch sink buf : List Nat)
    (h : ch.length + buf.length ≤ CHUNK_SIZE) :
    writeLoop A pos ch sink buf = some (pos, ch ++ buf, sink, buf.length) := by
  by_cases hb : buf = []
  · subst hb
    simp [writeLoop]
  · rw [writeLoop_eq, if_neg hb]
    have hmin : min (CHUNK_SIZE - ch.length) buf.length = buf.length :=
      min_eq_right (by omega)
    simp [hmin]

/-- A `write` from an empty buffer with more than a full chunk of input first
encrypts the leading 64 KiB as a non-final chunk, flushes it, and continues
with the remainder. -/
theorem writeLoop_step (A : Aead) (pos : Nat) (sink buf : List Nat)
    (hlen : CHUNK_SIZE < buf.length) (hpos : pos ≤ COUNTER_MAX) :
    writeLoop A pos [] sink buf =
      (writeLoop A (pos + COUNTER_INCR) []
          (sink ++ A.enc (nonceBytes pos false) (buf.take CHUNK_SIZE))
          (buf.drop CHUNK_SIZE)).map
        (fun r => (r.1, r.2.1, r.2.2.1, CHUNK_SIZE + r.2.2.2)) := by
  have hb : buf ≠ [] := by
    intro h
    subst h
    simp at hlen
  have hmin : min (CHUNK_SIZE - ([] : List Nat).length) buf.length = CHUNK_SIZE := by
    simp only [List.length_nil, Nat.sub_zero]
    omega
  have hdrop : buf.drop CHUNK_SIZE ≠ [] := by
    intro h
    have := congrArg List.length h
    simp at this
    omega
  rw [writeLoop_eq, if_neg hb]
  simp only [hmin, List.nil_append, if_neg hdrop, encrypt_next_eq A pos _ hpos]
  cases writeLoop A (pos + COUNTER_INCR) []
      (sink ++ A.enc (nonceBytes pos false) (buf.take CHUNK_SIZE)) (buf.drop CHUNK_SIZE) with
  | none => rfl
  | some r =>
    obtain ⟨p, c, s, w⟩ := r
    rfl

/-- Core of `writeLoop_written`: from an empty accumulation buffer, a
successful `writeLoop` call consumes and reports exactly its input length. -/
theorem writeLoop_written_nil (A : Aead) :
    ∀ (n : Nat) (buf : List Nat), buf.length ≤ n →
      ∀ pos sink p c s w,
        writeLoop A pos [] sink buf = some (p, c, s, w) → w = buf.length := by
  intro n
  induction n with
  | zero =>
    intro buf hn pos sink p c s w hw
    have hbuf : buf = [] := List.eq_nil_of_length_eq_zero (by omega)
    subst hbuf
    rw [writeLoop_eq, if_pos rfl] at hw
    simp only [Option.some.injEq, Prod.mk.injEq] at hw
    simp [← hw.2.2.2]
  | succ n ih =>
    intro buf hn pos sink p c s w hw
    by_cases hb : buf = []
    · subst hb
      rw [writeLoop_eq, if_pos rfl] at hw
      simp only [Option.some.injEq, Prod.mk.injEq] at hw
      simp [← hw.2.2.2]
    · rw [writeLoop_eq, if_neg hb] at hw
      simp only [List.length_nil, Nat.sub_zero] at hw
      set t := min CHUNK_SIZE buf.length with ht
      have htle : t ≤ buf.length := min_le_right _ _
      by_cases hd : buf.drop t = []
      · rw [if_pos hd] at hw
        have hle : buf.length ≤ t := by
          have := congrArg List.length hd
          simp only [List.length_drop, List.length_nil] at this
          omega
        simp only [Option.some.injEq, Prod.mk.injEq] at hw
        omega
      · rw [if_neg hd] at hw
        have hpos0 : 0 < buf.length := List.length_pos.mpr hb
        have hcpos : (0 : Nat) < CHUNK_SIZE := by norm_num [CHUNK_SIZE]
        have htpos : 0 < t := by
          rw [ht]
          omega
        cases hnext : encrypt_next A pos (([] : List Nat) ++ buf.take t) with
        | none =>
          rw [hnext] at hw
          simp at hw
        | some r =>
          obtain ⟨ct, pos'⟩ := r
          simp only [hnext] at hw
          cases hrec : writeLoop A pos' [] (sink ++ ct) (buf.drop t) with
          | none =>
            simp only [hrec] at hw
            exact absurd hw (by simp)
          | some r' =>
            obtain ⟨p', c', s', w'⟩ := r'
            simp only [hrec] at hw
            have hlen' : (buf.drop t).length ≤ n := by
              simp only [List.length_drop]
              omega
            have hw' := ih (buf.drop t) hlen' pos' (sink ++ ct) p' c' s' w' hrec
            simp only [List.length_drop] at hw'
            simp only [Option.some.injEq, Prod.mk.injEq] at hw
            omega

/-- `<StreamWriter as Write>::write` consumes its entire input whenever it
succeeds: the returned count equals the input length. -/
theorem writeLoop_written (A : Aead) (pos : Nat) (ch sink buf : List Nat)
    (p : Nat) (c s : List Nat) (w : Nat)
    (hw : writeLoop A pos ch sink buf = some (p, c, s, w)) : w = buf.length := by
  by_cases hb : buf = []
  · subst hb
    rw [writeLoop_eq, if_pos rfl] at hw
    simp only [Option.some.injEq, Prod.mk.injEq] at hw
    simp [← hw.2.2.2]
  · rw [writeLoop_eq, if_neg hb] at hw
    simp only [] at hw
    set t := min (CHUNK_SIZE - ch.length) buf.length with ht
    have htle : t ≤ buf.length := min_le_right _ _
    by_cases hd : buf.drop t = []
    · rw [if_pos hd] at hw
      have hle : buf.length ≤ t := by
        have := congrArg List.length hd
        simp only [List.length_drop, List.length_nil] at this
        omega
      simp only [Option.some.injEq, Prod.mk.injEq] at hw
      omega
    · rw [if_neg hd] at hw
      cases hnext : encrypt_next A pos (ch ++ buf.take t) with
      | none =>
        rw [hnext] at hw
        simp at hw
      | some r =>
        obtain ⟨ct, pos'⟩ := r
        simp only [hnext] at hw
        cases hrec : writeLoop A pos' [] (sink ++ ct) (buf.drop t) with
        | none =>
          simp only [hrec] at hw
          exact absurd hw (by simp)
        | some r' =>
          obtain ⟨p', c', s', w'⟩ := r'
          simp only [hrec] at hw
          have hw' := writeLoop_written_nil A (buf.drop t).length (buf.drop t)
            (le_refl _) pos' (sink ++ ct) p' c' s' w' hrec
          simp only [List.length_drop] at hw'
          simp only [Option.some.injEq, Prod.mk.injEq] at hw
          omega

theorem decrypt_next_eq (A : Aead) (pos : Nat) (ct : List Nat) (h : pos ≤ COUNTER_MAX) :
    decrypt_next A pos ct =
      (A.dec (nonceBytes pos false) ct).map (fun pt => (pt, pos + COUNTER_INCR)) := by
  have : ¬ COUNTER_MAX < pos := by omega
  simp [decrypt_next, decrypt_in_place, aead_nonce, this]

theorem decrypt_last_eq (A : Aead) (pos : Nat) (ct : List Nat) (h : pos ≤ COUNTER_MAX) :
    decrypt_last A pos ct = A.dec (nonceBytes pos true) ct := by
  have : ¬ COUNTER_MAX < pos := by omega
  simp [decrypt_last, decrypt_in_place, aead_nonce, this]

theorem streamCiphertext_small (A : Aead) (pos : Nat) (data : List Nat)
    (h : ¬ CHUNK_SIZE < data.length) :
    streamCiphertext A pos data = A.enc (nonceBytes pos true) data := by
  rw [streamCiphertext]
  simp [h]

theorem streamCiphertext_step (A : Aead) (pos : Nat) (data : List Nat)
    (h : CHUNK_SIZE < data.length) :
    streamCiphertext A pos data =
      A.enc (nonceBytes pos false) (data.take CHUNK_SIZE) ++
        streamCiphertext A (pos + COUNTER_INCR) (data.drop CHUNK_SIZE) := by
  rw [streamCiphertext]
  simp [h]

/-- The writer (one full `write` plus `finish`) emits exactly the
`streamCiphertext` chunk sequence, for any in-range starting position. -/
theorem encryptAllFrom_eq (A : Aead) :
    ∀ (n : Nat) (data : List Nat), data.length ≤ n → ∀ pos sink,
      pos + COUNTER_INCR * (data.length / CHUNK_SIZE) ≤ COUNTER_MAX →
      encryptAllFrom A pos sink data = some (sink ++ streamCiphertext A pos data) := by
  intro n
  induction n with
  | zero =>
    intro data hn pos sink hbound
    have hdata : data = [] := List.eq_nil_of_length_eq_zero (by omega)
    subst hdata
    have hpos : pos ≤ COUNTER_MAX := by omega
    rw [encryptAllFrom, writeLoop_no_flush A pos [] sink [] (by simp [CHUNK_SIZE])]
    rw [streamCiphertext_small A pos [] (by simp)]
    simp [streamFinish, encrypt_last_eq A pos _ hpos]
  | succ n ih =>
    intro data hn pos sink hbound
    by_cases hbig : CHUNK_SIZE < data.length
    · have hpos : pos ≤ COUNTER_MAX := by omega
      rw [encryptAllFrom, writeLoop_step A pos sink data hbig hpos]
      have hrest : encryptAllFrom A (pos + COUNTER_INCR)
          (sink ++ A.enc (nonceBytes pos false) (data.take CHUNK_SIZE))
          (data.drop CHUNK_SIZE) =
          some ((sink ++ A.enc (nonceBytes pos false) (data.take CHUNK_SIZE)) ++
            streamCiphertext A (pos + COUNTER_INCR) (data.drop CHUNK_SIZE)) := by
        apply ih
        · simp only [List.length_drop]
          have : (0 : Nat) < CHUNK_SIZE := by norm_num [CHUNK_SIZE]
          omega
        · have hc : CHUNK_SIZE = 65536 := rfl
          have hi : COUNTER_INCR = 256 := rfl
          simp only [List.length_drop, hc, hi] at *
          have : (data.length - 65536) / 65536 + 1 = data.length / 65536 := by omega
          omega
      rw [encryptAllFrom] at hrest
      cases hrec : writeLoop A (pos + COUNTER_INCR) []
          (sink ++ A.enc (nonceBytes pos false) (data.take CHUNK_SIZE))
          (data.drop CHUNK_SIZE) with
      | none =>
        simp only [hrec] at hrest
        exact absurd hrest (by simp)
      | some r =>
        obtain ⟨p, c, s, w⟩ := r
        simp only [hrec] at hrest
        simp only [hrec, Option.map_some']
        rw [streamCiphertext_step A pos data hbig, ← List.append_assoc]
        exact hrest
    · have hpos : pos ≤ COUNTER_MAX := by omega
      rw [encryptAllFrom, writeLoop_no_flush A pos [] sink data (by simp; omega)]
      rw [streamCiphertext_small A pos data hbig]
      simp [streamFinish, encrypt_last_eq A pos _ hpos]

theorem readToEnd_nil (A : Aead) (pos : Nat) (acc : List Nat) :
    readToEnd A pos [] acc = .ok acc := by
  rw [readToEnd]
  simp

/-- Base case of `readToEnd_stream`: a single final chunk (strictly short or
exactly full) decrypts back to its plaintext; the exactly-full case exercises
the try-nonfinal-then-retry-as-final path. -/
theorem readToEnd_stream_small (A : Aead) (data : List Nat) (pos : Nat) (acc : List Nat)
    (hmod : pos % 256 = 0) (hpos : pos ≤ COUNTER_MAX) (hsmall : data.length ≤ CHUNK_SIZE) :
    readToEnd A pos (streamCiphertext A pos data) acc = .ok (acc ++ data) := by
  have hnonceT : (nonceBytes pos true).length = 12 := nonceBytes_length pos true
  rw [streamCiphertext_small A pos data (by omega)]
  set ct := A.enc (nonceBytes pos true) data with hct
  have hctlen : ct.length = data.length + TAG_SIZE := A.enc_length _ _ hnonceT
  have htag : TAG_SIZE = 16 := rfl
  have hecs : ENCRYPTED_CHUNK_SIZE = CHUNK_SIZE + TAG_SIZE := rfl
  have hne : ct ≠ [] := by
    intro h
    have := congrArg List.length h
    rw [hctlen] at this
    simp [htag] at this
  rw [readToEnd, dif_neg hne]
  have hle : ct.length ≤ ENCRYPTED_CHUNK_SIZE := by omega
  rw [List.take_of_length_le hle]
  have hchunk : decrypt_chunk A pos ct = .ok (some data, pos) := by
    rw [decrypt_chunk, if_neg hne]
    by_cases hfull : data.length = CHUNK_SIZE
    · have hlast : ¬ (ct.length < ENCRYPTED_CHUNK_SIZE) := by omega
      have hdn : A.dec (nonceBytes pos false) ct = none := by
        rw [hct]
        exact A.dec_wrong_nonce _ _ _ (nonceBytes_length pos true)
          (nonceBytes_length pos false) (Ne.symm (nonceBytes_flag_ne pos hmod hpos))
      have hdnext : decrypt_next A pos ct = none := by
        rw [decrypt_next_eq A pos ct hpos, hdn]
        rfl
      have hdlast : decrypt_last A pos ct = some data := by
        rw [decrypt_last_eq A pos ct hpos, hct, A.dec_enc _ _ hnonceT]
      simp only [if_neg hlast, hdnext, hdlast]
    · have hlast : ct.length < ENCRYPTED_CHUNK_SIZE := by omega
      have hdlast : decrypt_last A pos ct = some data := by
        rw [decrypt_last_eq A pos ct hpos, hct, A.dec_enc _ _ hnonceT]
      simp only [if_pos hlast, hdlast]
  simp only [hchunk]
  rw [List.drop_eq_nil_of_le hle, readToEnd_nil]
  simp

/-- Reading a writer-produced chunk sequence to the end recovers the
plaintext, for any in-range starting chunk position. -/
theorem readToEnd_stream (A : Aead) :
    ∀ (n : Nat) (data : List Nat), data.length ≤ n → ∀ pos acc,
      pos % 256 = 0 →
      pos + COUNTER_INCR * (data.length / CHUNK_SIZE) ≤ COUNTER_MAX →
      readToEnd A pos (streamCiphertext A pos data) acc = .ok (acc ++ data) := by
  intro n
  induction n with
  | zero =>
    intro data hn pos acc hmod hbound
    have hdata : data = [] := List.eq_nil_of_length_eq_zero (by omega)
    subst hdata
    exact readToEnd_stream_small A [] pos acc hmod (by omega) (by simp [CHUNK_SIZE])
  | succ n ih =>
    intro data hn pos acc hmod hbound
    by_cases hbig : CHUNK_SIZE < data.length
    · have hpos : pos ≤ COUNTER_MAX := by omega
      have hnonce : (nonceBytes pos false).length = 12 := nonceBytes_length pos false
      have htakelen : (data.take CHUNK_SIZE).length = CHUNK_SIZE := by
        simp only [List.length_take]
        omega
      set ct0 := A.enc (nonceBytes pos false) (data.take CHUNK_SIZE) with hct0
      have hct0len : ct0.length = ENCRYPTED_CHUNK_SIZE := by
        rw [hct0, A.enc_length _ _ hnonce, htakelen]
        rfl
      rw [streamCiphertext_step A pos data hbig]
      have hne : ct0 ++ streamCiphertext A (pos + COUNTER_INCR) (data.drop CHUNK_SIZE) ≠ [] := by
        intro h
        have := congrArg List.length h
        simp only [List.length_append, List.length_nil] at this
        have he : (0 : Nat) < ENCRYPTED_CHUNK_SIZE := by
          norm_num [ENCRYPTED_CHUNK_SIZE, CHUNK_SIZE, TAG_SIZE]
        omega
      rw [readToEnd, dif_neg hne]
      rw [List.take_left' hct0len, List.drop_left' hct0len]
      have hchunk : decrypt_chunk A pos ct0 =
          .ok (some (data.take CHUNK_SIZE), pos + COUNTER_INCR) := by
        rw [decrypt_chunk]
        have hne0 : ct0 ≠ [] := by
          intro h
          have := congrArg List.length h
          rw [hct0len] at this
          norm_num [ENCRYPTED_CHUNK_SIZE, CHUNK_SIZE, TAG_SIZE] at this
        rw [if_neg hne0]
        have hlast : ¬ (ct0.length < ENCRYPTED_CHUNK_SIZE) := by
          rw [hct0len]
          omega
        simp only [if_neg hlast]
        rw [decrypt_next_eq A pos ct0 hpos, hct0, A.dec_enc _ _ hnonce]
        rfl
      simp only [hchunk]
      have hdroplen : (data.drop CHUNK_SIZE).length ≤ n := by
        simp only [List.length_drop]
        have : (0 : Nat) < CHUNK_SIZE := by norm_num [CHUNK_SIZE]
        omega
      have hbound' : (pos + COUNTER_INCR) +
          COUNTER_INCR * ((data.drop CHUNK_SIZE).length / CHUNK_SIZE) ≤ COUNTER_MAX := by
        have hc : CHUNK_SIZE = 65536 := rfl
        have hi : COUNTER_INCR = 256 := rfl
        simp only [List.length_drop, hc, hi] at *
        have : (data.length - 65536) / 65536 + 1 = data.length / 65536 := by omega
        omega
      have := ih (data.drop CHUNK_SIZE) hdroplen (pos + COUNTER_INCR)
        (acc ++ (data.take CHUNK_SIZE))
        (by simp only [show COUNTER_INCR = 256 from rfl]; omega) hbound'
      simp only [Option.getD_some]
      rw [this, List.append_assoc, List.take_append_drop]
    · exact readToEnd_stream_small A data pos acc hmod (by omega) (by omega)

/-!
## Claim theorems: writer and round trip
-/

/-- C1: for every byte sequence of length 0, 1, exactly one chunk, or
`CHUNK_SIZE * k + r` (`k ≥ 1`, `r < CHUNK_SIZE`), writing it through the
stream writer, finishing, and reading the resulting ciphertext to the end
under the same key reproduces the data exactly.  (The length bound reflects
`usize`: a Rust buffer cannot exceed `2^64` bytes.) -/
theorem claim_c1_roundtrip (A : Aead) (data : List Nat)
    (hlen : data.length = 0 ∨ data.length = 1 ∨ data.length = CHUNK_SIZE ∨
      ∃ k r, 1 ≤ k ∧ r < CHUNK_SIZE ∧ data.length = CHUNK_SIZE * k + r)
    (hbound : data.length < 2 ^ 64) :
    ∃ ct, encryptAll A data = some ct ∧ readToEnd A 0 ct [] = .ok data := by
  have hdiv : data.length / CHUNK_SIZE ≤ data.length := Nat.div_le_self _ _
  have hb : 0 + COUNTER_INCR * (data.length / CHUNK_SIZE) ≤ COUNTER_MAX := by
    have hi : COUNTER_INCR = 256 := rfl
    have hm : COUNTER_MAX = 0xffffffffffffffffffffff00 := rfl
    rw [hi, hm]
    have h64 : (2 : Nat) ^ 64 = 18446744073709551616 := by norm_num
    omega
  refine ⟨streamCiphertext A 0 data, ?_, ?_⟩
  · show encryptAllFrom A 0 [] data = some (streamCiphertext A 0 data)
    rw [encryptAllFrom_eq A data.length data (le_refl _) 0 [] hb]
    simp
  · have h := readToEnd_stream A data.length data (le_refl _) 0 [] (by omega) hb
    simpa using h

/-- Witness for C1 at the chunk-aligned length `CHUNK_SIZE`. -/
theorem claim_c1_roundtrip_witness :
    ∃ ct, encryptAll toyAead (List.replicate CHUNK_SIZE 42) = some ct ∧
      readToEnd toyAead 0 ct [] = .ok (List.replicate CHUNK_SIZE 42) :=
  claim_c1_roundtrip toyAead (List.replicate CHUNK_SIZE 42)
    (Or.inr (Or.inr (Or.inl (List.length_replicate _ _))))
    (by rw [List.length_replicate]; norm_num [CHUNK_SIZE])

/-- C2 (code bug): writing two full chunks of plaintext and dropping the
writer without `finish` leaves a single non-final encrypted chunk in the sink,
and reading that sink to the end SUCCEEDS with the first chunk's plaintext —
the truncation check in `decrypt_chunk` is commented out (`TODO` block), so no
unexpected-end-of-stream error is raised, contradicting the in-repo test
`stream_fails_to_decrypt_truncated_file` and the doc comment on `finish`. -/
theorem claim_c2_truncated_read_succeeds :
    writeLoop toyAead 0 [] [] (List.replicate (2 * CHUNK_SIZE) 42) =
      some (COUNTER_INCR, List.replicate CHUNK_SIZE 42,
        toyAead.enc (nonceBytes 0 false) (List.replicate CHUNK_SIZE 42),
        2 * CHUNK_SIZE) ∧
    readToEnd toyAead 0
        (toyAead.enc (nonceBytes 0 false) (List.replicate CHUNK_SIZE 42)) [] =
      .ok (List.replicate CHUNK_SIZE 42) := by
  have hcpos : (0 : Nat) < CHUNK_SIZE := by norm_num [CHUNK_SIZE]
  have hmin2 : min CHUNK_SIZE (2 * CHUNK_SIZE) = CHUNK_SIZE := by omega
  have hsub2 : 2 * CHUNK_SIZE - CHUNK_SIZE = CHUNK_SIZE := by omega
  have htake : (List.replicate (2 * CHUNK_SIZE) 42).take CHUNK_SIZE =
      List.replicate CHUNK_SIZE (42 : Nat) := by
    rw [List.take_replicate, hmin2]
  have hdrop : (List.replicate (2 * CHUNK_SIZE) 42).drop CHUNK_SIZE =
      List.replicate CHUNK_SIZE (42 : Nat) := by
    rw [List.drop_replicate, hsub2]
  constructor
  · rw [writeLoop_step toyAead 0 [] (List.replicate (2 * CHUNK_SIZE) 42)
      (by simp; omega) (Nat.zero_le _)]
    rw [htake, hdrop]
    rw [writeLoop_no_flush toyAead (0 + COUNTER_INCR) []
      ([] ++ toyAead.enc (nonceBytes 0 false) (List.replicate CHUNK_SIZE 42))
      (List.replicate CHUNK_SIZE 42) (by rw [List.length_nil, List.length_replicate]; omega)]
    have h2 : CHUNK_SIZE + CHUNK_SIZE = 2 * CHUNK_SIZE := by ring
    simp only [Option.map_some', List.nil_append, List.length_replicate, Nat.zero_add, h2]
  · set ct0 := toyAead.enc (nonceBytes 0 false) (List.replicate CHUNK_SIZE 42) with hct0
    have hlen : ct0.length = ENCRYPTED_CHUNK_SIZE := by
      rw [hct0, toyAead.enc_length _ _ (nonceBytes_length 0 false), List.length_replicate]
      rfl
    have hne : ct0 ≠ [] := by
      intro h
      have := congrArg List.length h
      rw [hlen] at this
      norm_num [ENCRYPTED_CHUNK_SIZE, CHUNK_SIZE, TAG_SIZE] at this
    rw [readToEnd, dif_neg hne, List.take_of_length_le (le_of_eq hlen)]
    have hchunk : decrypt_chunk toyAead 0 ct0 =
        .ok (some (List.replicate CHUNK_SIZE 42), 0 + COUNTER_INCR) := by
      rw [decrypt_chunk, if_neg hne]
      have hlast : ¬ (ct0.length < ENCRYPTED_CHUNK_SIZE) := by omega
      have hnext : decrypt_next toyAead 0 ct0 =
          some (List.replicate CHUNK_SIZE 42, 0 + COUNTER_INCR) := by
        rw [decrypt_next_eq toyAead 0 ct0 (Nat.zero_le _), hct0,
          toyAead.dec_enc _ _ (nonceBytes_length 0 false)]
        rfl
      simp only [if_neg hlast, hnext]
    simp only [hchunk]
    rw [List.drop_eq_nil_of_le (le_of_eq hlen), readToEnd_nil]
    rfl

/-- C3: chunk decryption resolves the final-chunk ambiguity exactly as
specified: a full 65552-byte pull is first tried as a non-final chunk, retried
as a final chunk on authentication failure, and only then reported as a
data-integrity error; a short pull is tried only as the final chunk, with no
retry on failure. -/
theorem claim_c3_decrypt_chunk_cases (A : Aead) (pos : Nat) (bytes : List Nat)
    (hpos : pos ≤ COUNTER_MAX) :
    (bytes.length = ENCRYPTED_CHUNK_SIZE →
      ∀ pt, A.dec (nonceBytes pos false) bytes = some pt →
        decrypt_chunk A pos bytes = .ok (some pt, pos + COUNTER_INCR)) ∧
    (bytes.length = ENCRYPTED_CHUNK_SIZE →
      A.dec (nonceBytes pos false) bytes = none →
      ∀ pt, A.dec (nonceBytes pos true) bytes = some pt →
        decrypt_chunk A pos bytes = .ok (some pt, pos)) ∧
    (bytes.length = ENCRYPTED_CHUNK_SIZE →
      A.dec (nonceBytes pos false) bytes = none →
      A.dec (nonceBytes pos true) bytes = none →
      decrypt_chunk A pos bytes = .error "last chunk has been processed") ∧
    (0 < bytes.length → bytes.length < ENCRYPTED_CHUNK_SIZE →
      ∀ pt, A.dec (nonceBytes pos true) bytes = some pt →
        decrypt_chunk A pos bytes = .ok (some pt, pos)) ∧
    (0 < bytes.length → bytes.length < ENCRYPTED_CHUNK_SIZE →
      A.dec (nonceBytes pos true) bytes = none →
      decrypt_chunk A pos bytes = .error "last chunk has been processed") := by
  have hecs : (0 : Nat) < ENCRYPTED_CHUNK_SIZE := by
    norm_num [ENCRYPTED_CHUNK_SIZE, CHUNK_SIZE, TAG_SIZE]
  have hne_of_full : bytes.length = ENCRYPTED_CHUNK_SIZE → bytes ≠ [] := by
    intro hfull h
    have := congrArg List.length h
    simp only [List.length_nil] at this
    omega
  have hne_of_pos : 0 < bytes.length → bytes ≠ [] := by
    intro hpos0 h
    have := congrArg List.length h
    simp only [List.length_nil] at this
    omega
  refine ⟨?_, ?_, ?_, ?_, ?_⟩
  · intro hfull pt hdec
    rw [decrypt_chunk, if_neg (hne_of_full hfull)]
    have hlast : ¬ (bytes.length < ENCRYPTED_CHUNK_SIZE) := by omega
    have hnext : decrypt_next A pos bytes = some (pt, pos + COUNTER_INCR) := by
      rw [decrypt_next_eq A pos bytes hpos, hdec]
      rfl
    simp only [if_neg hlast, hnext]
  · intro hfull hdecF pt hdecT
    rw [decrypt_chunk, if_neg (hne_of_full hfull)]
    have hlast : ¬ (bytes.length < ENCRYPTED_CHUNK_SIZE) := by omega
    have hnext : decrypt_next A pos bytes = none := by
      rw [decrypt_next_eq A pos bytes hpos, hdecF]
      rfl
    have hlastdec : decrypt_last A pos bytes = some pt := by
      rw [decrypt_last_eq A pos bytes hpos, hdecT]
    simp only [if_neg hlast, hnext, hlastdec]
  · intro hfull hdecF hdecT
    rw [decrypt_chunk, if_neg (hne_of_full hfull)]
    have hlast : ¬ (bytes.length < ENCRYPTED_CHUNK_SIZE) := by omega
    have hnext : decrypt_next A pos bytes = none := by
      rw [decrypt_next_eq A pos bytes hpos, hdecF]
      rfl
    have hlastdec : decrypt_last A pos bytes = none := by
      rw [decrypt_last_eq A pos bytes hpos, hdecT]
    simp only [if_neg hlast, hnext, hlastdec]
  · intro hpos0 hshort pt hdecT
    rw [decrypt_chunk, if_neg (hne_of_pos hpos0)]
    have hlastdec : decrypt_last A pos bytes = some pt := by
      rw [decrypt_last_eq A pos bytes hpos, hdecT]
    simp only [if_pos hshort, hlastdec]
  · intro hpos0 hshort hdecT
    rw [decrypt_chunk, if_neg (hne_of_pos hpos0)]
    have hlastdec : decrypt_last A pos bytes = none := by
      rw [decrypt_last_eq A pos bytes hpos, hdecT]
    simp only [if_pos hshort, hlastdec]

/-- Witness for C3, exercising the retry-as-final path on a full-size chunk
that was encrypted as the final chunk. -/
theorem claim_c3_decrypt_chunk_cases_witness :
    decrypt_chunk toyAead 0 (toyAead.enc (nonceBytes 0 true)
        (List.replicate CHUNK_SIZE 3)) =
      .ok (some (List.replicate CHUNK_SIZE 3), 0) := by
  have hlen : (toyAead.enc (nonceBytes 0 true) (List.replicate CHUNK_SIZE 3)).length
      = ENCRYPTED_CHUNK_SIZE := by
    rw [toyAead.enc_length _ _ (nonceBytes_length 0 true), List.length_replicate]
    rfl
  exact (claim_c3_decrypt_chunk_cases toyAead 0 _ (Nat.zero_le _)).2.1 hlen
    (toyAead.dec_wrong_nonce _ _ _ (nonceBytes_length 0 true) (nonceBytes_length 0 false)
      (Ne.symm (nonceBytes_flag_ne 0 rfl (Nat.zero_le _))))
    _ (toyAead.dec_enc _ _ (nonceBytes_length 0 true))

/-- C4 counterexample: at position 256 with the flag clear, the nonce is not
the 11 low-order bytes of the position (big-endian) followed by the flag byte;
the counter part of the nonce encodes the position divided by 256 instead. -/
theorem claim_c4_counterexample :
    aead_nonce 256 false ≠ some (beBytes 11 256 ++ [0]) := by
  have h : aead_nonce 256 false = some (beBytes 11 1 ++ [0]) := by
    rw [aead_nonce, if_neg (by norm_num [COUNTER_MAX]),
      nonceBytes_eq 256 false (by norm_num) (by norm_num [COUNTER_MAX])]
    norm_num
  rw [h]
  decide

/-- C4 amended: for every valid chunk position (multiple of 256, at most
`COUNTER_MAX`) and flag, the nonce is the 11-byte big-endian encoding of the
chunk counter `position / 256` followed by one flag byte (0x01 when the
last-block flag is set, 0x00 otherwise), deterministically. -/
theorem claim_c4_nonce_eq (pos : Nat) (last : Bool) (hmod : pos % 256 = 0)
    (hmax : pos ≤ COUNTER_MAX) :
    aead_nonce pos last = some (beBytes 11 (pos / 256) ++ [if last then 1 else 0]) := by
  rw [aead_nonce, if_neg (by omega), nonceBytes_eq pos last hmod hmax]

/-- Witness for the amended C4 at position 256, flag set. -/
theorem claim_c4_nonce_eq_witness :
    aead_nonce 256 true = some (beBytes 11 1 ++ [1]) := by
  have h := claim_c4_nonce_eq 256 true (by norm_num) (by norm_num [COUNTER_MAX])
  norm_num at h
  exact h

/-- C5 counterexample: position `2^88` strictly exceeds `2^88 - 256`, yet
`encrypt_in_place` succeeds — the implemented maximum is `COUNTER_MAX =
2^96 - 256`, not `2^88 - 256`. -/
theorem claim_c5_counterexample :
    2 ^ 88 - 256 < 2 ^ 88 ∧ encrypt_in_place toyAead (2 ^ 88) false [] ≠ none := by
  constructor
  · norm_num
  · have h : ¬ COUNTER_MAX < 2 ^ 88 := by norm_num [COUNTER_MAX]
    rw [encrypt_in_place, aead_nonce, if_neg h]
    simp

/-- C5 amended: for every position strictly greater than `2^96 - 256`
(`COUNTER_MAX`), both `encrypt_in_place` and `decrypt_in_place` return an AEAD
error rather than computing a nonce. -/
theorem claim_c5_counter_guard (A : Aead) (pos : Nat) (last : Bool) (buf : List Nat)
    (h : COUNTER_MAX < pos) :
    encrypt_in_place A pos last buf = none ∧ decrypt_in_place A pos last buf = none := by
  simp [encrypt_in_place, decrypt_in_place, aead_nonce, h]

/-- Witness for the amended C5 at position `2^96`. -/
theorem claim_c5_counter_guard_witness :
    encrypt_in_place toyAead (2 ^ 96) false [] = none ∧
      decrypt_in_place toyAead (2 ^ 96) false [] = none :=
  claim_c5_counter_guard toyAead (2 ^ 96) false [] (by norm_num [COUNTER_MAX])

/-- C6: a write whose input fits in the remaining buffer space (including one
that fills the buffer to exactly 64 KiB) holds the buffer without flushing;
`finish` is what emits the final (flag-set, possibly short or empty) chunk;
and a flush happens during `write` only when a full 64 KiB chunk has
accumulated with input remaining, encrypted as a non-final chunk. -/
theorem claim_c6_buffering (A : Aead) (pos : Nat) (ch sink buf : List Nat) :
    (ch.length + buf.length ≤ CHUNK_SIZE →
      writeLoop A pos ch sink buf = some (pos, ch ++ buf, sink, buf.length)) ∧
    (pos ≤ COUNTER_MAX →
      streamFinish A pos ch sink = some (sink ++ A.enc (nonceBytes pos true) ch)) ∧
    (CHUNK_SIZE < buf.length → pos ≤ COUNTER_MAX →
      writeLoop A pos [] sink buf =
        (writeLoop A (pos + COUNTER_INCR) []
            (sink ++ A.enc (nonceBytes pos false) (buf.take CHUNK_SIZE))
            (buf.drop CHUNK_SIZE)).map
          (fun r => (r.1, r.2.1, r.2.2.1, CHUNK_SIZE + r.2.2.2))) := by
  refine ⟨fun h => writeLoop_no_flush A pos ch sink buf h,
          fun h => by simp [streamFinish, encrypt_last_eq A pos _ h],
          fun h1 h2 => writeLoop_step A pos sink buf h1 h2⟩

/-- Witness for C6: an exact-fill write holds the full buffer unflushed, and
`finish` emits the (empty) final chunk. -/
theorem claim_c6_buffering_witness :
    writeLoop toyAead 0 [] [] (List.replicate CHUNK_SIZE 1) =
      some (0, [] ++ List.replicate CHUNK_SIZE 1, [],
        (List.replicate CHUNK_SIZE 1).length) ∧
    streamFinish toyAead 0 [] [] = some ([] ++ toyAead.enc (nonceBytes 0 true) []) :=
  ⟨(claim_c6_buffering toyAead 0 [] [] (List.replicate CHUNK_SIZE 1)).1
      (by rw [List.length_nil, List.length_replicate]; omega),
   (claim_c6_buffering toyAead 0 [] [] []).2.1 (Nat.zero_le _)⟩

/-- C10: a successful synchronous `write` consumes and buffers/encrypts its
entire input in that single call: the returned count is exactly the input
length, never smaller. -/
theorem claim_c10_write_consumes_all (A : Aead) (pos : Nat) (ch sink buf : List Nat)
    (p : Nat) (c s : List Nat) (w : Nat)
    (hw : writeLoop A pos ch sink buf = some (p, c, s, w)) : w = buf.length :=
  writeLoop_written A pos ch sink buf p c s w hw

/-- Witness for C10 on a concrete three-byte write. -/
theorem claim_c10_write_consumes_all_witness :
    writeLoop toyAead 0 [] [] [1, 2, 3] = some (0, [1, 2, 3], [], 3) ∧
      (3 : Nat) = ([1, 2, 3] : List Nat).length := by
  have h := writeLoop_no_flush toyAead 0 [] [] [1, 2, 3] (by norm_num [CHUNK_SIZE])
  refine ⟨by simpa using h, ?_⟩
  exact claim_c10_write_consumes_all toyAead 0 [] [] [1, 2, 3] 0 [1, 2, 3] [] 3
    (by simpa using h)


/-!
## StreamReader state, read path, and Seek

For the seek claims the reader is modelled in full over a seekable in-memory
source: the underlying reader is the byte list `src` with cursor `srcPos`
(`Read::read` drains from the cursor, `Seek` moves it).  The state mirrors the
`StreamReader` struct fields; `encrypted_pos` is always 0 between `read`
calls, so the pull loop is modelled as a single take of up to
`ENCRYPTED_CHUNK_SIZE` bytes.
-/

/-- `StartPos` from stream.rs: lazily resolved stream start. -/
inductive StartPos where
  | implicit (offset : Nat)
  | explicit (start : Nat)
deriving DecidableEq, Repr

/-- The `StreamReader` state: cipher position, underlying container and
cursor, start resolution, current plaintext offset, resident chunk. -/
structure ReaderState where
  streamPos : Nat
  src : List Nat
  srcPos : Nat
  start : StartPos
  curPlaintextPos : Nat
  chunk : Option (List Nat)
deriving DecidableEq, Repr

/-- The state `Stream::decrypt` constructs over a source whose cursor is at
the stream head. -/
def freshReader (src : List Nat) : ReaderState :=
  { streamPos := 0, src := src, srcPos := 0, start := .implicit 0,
    curPlaintextPos := 0, chunk := none }

/-- `StreamReader::count_bytes`: bytes consumed are counted only while the
start position is still implicit. -/
def countBytes (sp : StartPos) (read : Nat) : StartPos :=
  match sp with
  | .implicit offset => .implicit (offset + read)
  | .explicit start => .explicit start

/-- The chunk-refill half of `<StreamReader as Read>::read`: when no chunk is
resident, pull up to `ENCRYPTED_CHUNK_SIZE` bytes from the source and run
`decrypt_chunk` at the current cipher position. -/
def readChunkIfNeeded (A : Aead) (st : ReaderState) : Except String ReaderState :=
  match st.chunk with
  | some _ => .ok st
  | none =>
    let pulled := (st.src.drop st.srcPos).take ENCRYPTED_CHUNK_SIZE
    match decrypt_chunk A st.streamPos pulled with
    | .error e => .error e
    | .ok (c, pos') =>
      .ok { st with
        srcPos := st.srcPos + pulled.length,
        start := countBytes st.start pulled.length,
        chunk := c,
        streamPos := pos' }

/-- `StreamReader::read_from_chunk`: serve bytes out of the resident chunk at
the current intra-chunk offset; drop the chunk when the offset crosses a
chunk boundary. -/
def read_from_chunk (st : ReaderState) (bufLen : Nat) : List Nat × ReaderState :=
  match st.chunk with
  | none => ([], st)
  | some c =>
    let cur_chunk_offset := st.curPlaintextPos % CHUNK_SIZE
    let to_read := min (c.length - cur_chunk_offset) bufLen
    let out := (c.drop cur_chunk_offset).take to_read
    let newPos := st.curPlaintextPos + to_read
    (out, { st with curPlaintextPos := newPos,
                    chunk := if newPos % CHUNK_SIZE = 0 then none else some c })

/-- One `<StreamReader as Read>::read` call with a buffer of `bufLen` bytes. -/
def readOnce (A : Aead) (st : ReaderState) (bufLen : Nat) :
    Except String (List Nat × ReaderState) :=
  match readChunkIfNeeded A st with
  | .error e => .error e
  | .ok st' => .ok (read_from_chunk st' bufLen)

/-- `Read::read_exact` over `readOnce`: loop until `n` bytes are served; a
0-byte read part-way is the unexpected-end-of-file error. -/
def readExact (A : Aead) (st : ReaderState) (n : Nat) : Except String ReaderState :=
  if n = 0 then .ok st
  else
    match readOnce A st n with
    | .error e => .error e
    | .ok (out, st') =>
      if out.length = 0 then .error "failed to fill whole buffer"
      else readExact A st' (n - out.length)
termination_by n
decreasing_by
  omega

/-- Resolution of the start position on first seek (stream.rs
`StreamReader::start`): query the cursor and subtract the running count. -/
def resolveStart (st : ReaderState) : Nat × ReaderState :=
  match st.start with
  | .implicit offset =>
    (st.srcPos - offset, { st with start := .explicit (st.srcPos - offset) })
  | .explicit start => (start, st)

/-- `std::io::SeekFrom`. -/
inductive SeekFrom where
  | fromStart (offset : Nat)
  | fromCurrent (offset : Int)
  | fromEnd (offset : Int)

/-- Wrapping `u64` subtraction, modelling release-mode Rust (a debug build
panics on underflow instead). -/
def u64Sub (a b : Nat) : Nat :=
  ((((a : Int) - (b : Int)) % (2 ^ 64 : Int))).toNat

/-- Reinterpretation of a `u64` value as an `i64` (the `as i64` cast):
two's-complement, so values at or above `2^63` become negative. -/
def u64AsI64 (x : Nat) : Int :=
  if x % 2 ^ 64 < 2 ^ 63 then ((x % 2 ^ 64 : Nat) : Int)
  else ((x % 2 ^ 64 : Nat) : Int) - 2 ^ 64

/-- Wrapping of an integer into the `i64` range, modelling release-mode `i64`
addition (a debug build panics on overflow instead). -/
def i64Wrap (x : Int) : Int :=
  (x + 2 ^ 63) % (2 ^ 64 : Int) - 2 ^ 63

theorem u64Sub_eq (a b : Nat) (hb : b ≤ a) (ha : a < 2 ^ 64) : u64Sub a b = a - b := by
  have h1 : (0 : Int) ≤ (a : Int) - b := by
    have : (b : Int) ≤ a := by exact_mod_cast hb
    omega
  have h2 : (a : Int) - b < 2 ^ 64 := by
    have : (a : Int) < 2 ^ 64 := by exact_mod_cast ha
    omega
  simp only [u64Sub]
  rw [Int.emod_eq_of_lt h1 h2]
  omega

theorem u64AsI64_eq (x : Nat) (h : x < 2 ^ 63) : u64AsI64 x = (x : Int) := by
  have hm : x % 2 ^ 64 = x := Nat.mod_eq_of_lt (by omega)
  simp only [u64AsI64, hm]
  rw [if_pos h]

theorem i64Wrap_eq_self (x : Int) (h1 : -(2 ^ 63) ≤ x) (h2 : x < 2 ^ 63) :
    i64Wrap x = x := by
  have g1 : (0 : Int) ≤ x + 2 ^ 63 := by omega
  have g2 : x + 2 ^ 63 < 2 ^ 64 := by
    have : (2 : Int) ^ 64 = 2 ^ 63 + 2 ^ 63 := by norm_num
    omega
  simp only [i64Wrap]
  rw [Int.emod_eq_of_lt g1 g2]
  omega

/-- `<StreamReader as Seek>::seek` (stream.rs lines 536-604).  The counter
reset is commented out in the source (`TODO: Fix once aead::stream is
seekable`), so `streamPos` is NOT updated when moving to another chunk; the
model reproduces that.  The `fromEnd` arm performs the source's `u64`
arithmetic with explicit wrapping (release-mode semantics; a debug build
would panic on the same inputs), so an underflowing
`ct_end - start - total_tag_size` yields a huge `u64` whose `i64`
reinterpretation is negative and the arm reports the cannot-seek error.
`num_chunks * TAG_SIZE` cannot overflow `u64` (`num_chunks < 2^49` for any
`u64` container length) and is left unwrapped. -/
def seek (A : Aead) (st0 : ReaderState) (pos : SeekFrom) :
    Except String (Nat × ReaderState) :=
  let res := resolveStart st0
  let start := res.1
  let st := res.2
  let target? : Except String Nat :=
    match pos with
    | .fromStart offset => .ok offset
    | .fromCurrent offset =>
      let r : Int := (st.curPlaintextPos : Int) + offset
      if 0 ≤ r then .ok r.toNat else .error "cannot seek before the start"
    | .fromEnd offset =>
      let ct_end := st.src.length % 2 ^ 64
      let num_chunks := ct_end / ENCRYPTED_CHUNK_SIZE + 1
      let total_tag_size := num_chunks * TAG_SIZE
      let pt_end := u64Sub (u64Sub ct_end start) total_tag_size
      let r : Int := i64Wrap (u64AsI64 pt_end + offset)
      if 0 ≤ r then .ok r.toNat else .error "cannot seek before the start"
  match target? with
  | .error e => .error e
  | .ok target_pos =>
    let cur_chunk_index := st.curPlaintextPos / CHUNK_SIZE
    let target_chunk_index := target_pos / CHUNK_SIZE
    let target_chunk_offset := target_pos % CHUNK_SIZE
    if target_chunk_index = cur_chunk_index then
      .ok (target_pos, { st with curPlaintextPos := target_pos })
    else
      -- Clear the current chunk and seek the source to the target chunk.
      -- The source line resetting the cipher counter to target_chunk_index
      -- is commented out, so streamPos is left unchanged here.
      let st' := { st with
        chunk := none,
        srcPos := start + target_chunk_index * ENCRYPTED_CHUNK_SIZE,
        curPlaintextPos := target_chunk_index * CHUNK_SIZE }
      if 0 < target_chunk_offset then
        match readExact A st' target_chunk_offset with
        | .error e => .error e
        | .ok st2 => .ok (target_pos, st2)
      else .ok (target_pos, st')

/-!
## Claim theorems: seek
-/

set_option maxHeartbeats 1000000 in
/-- Evaluation of `seek` from the start of a fresh reader to a chunk-aligned
offset in another chunk: cursor and plaintext offset are repositioned, the
chunk index scales by `ENCRYPTED_CHUNK_SIZE` on the source side, and the
cipher position is left at 0 (the reset is commented out in the source). -/
theorem seek_fromStart_fresh (A : Aead) (src : List Nat) (offset q : Nat)
    (hq : offset / CHUNK_SIZE = q) (hq0 : q ≠ 0) (hmod0 : offset % CHUNK_SIZE = 0) :
    seek A (freshReader src) (.fromStart offset) =
      .ok (offset,
        { streamPos := 0, src := src, srcPos := q * ENCRYPTED_CHUNK_SIZE,
          start := .explicit 0, curPlaintextPos := q * CHUNK_SIZE, chunk := none }) := by
  simp only [seek, resolveStart, freshReader, hq, hmod0, Nat.zero_div, Nat.sub_zero,
    Nat.zero_add, if_neg hq0]
  simp

/-- Evaluation of `seek` from the end on a fresh reader when the target lands
in the first chunk: the returned offset is
`ct_len - (ct_len / 65552 + 1) * 16 + off`. -/
theorem seek_fromEnd_eval_fresh (A : Aead) (src : List Nat) (off : Int) (target L : Nat)
    (hL : src.length = L) (hlt : L < 2 ^ 63)
    (hub : (L / ENCRYPTED_CHUNK_SIZE + 1) * TAG_SIZE ≤ L)
    (htarget : ((L - (L / ENCRYPTED_CHUNK_SIZE + 1) * TAG_SIZE : Nat) : Int) + off =
      (target : Int))
    (hsame : target / CHUNK_SIZE = 0) :
    seek A (freshReader src) (.fromEnd off) =
      .ok (target,
        { streamPos := 0, src := src, srcPos := 0, start := .explicit 0,
          curPlaintextPos := target, chunk := none }) := by
  have hmod : L % 2 ^ 64 = L := Nat.mod_eq_of_lt (by omega)
  have hsub1 : u64Sub L 0 = L := by
    rw [u64Sub_eq L 0 (Nat.zero_le _) (by omega), Nat.sub_zero]
  have hsub2 : u64Sub L ((L / ENCRYPTED_CHUNK_SIZE + 1) * TAG_SIZE) =
      L - (L / ENCRYPTED_CHUNK_SIZE + 1) * TAG_SIZE :=
    u64Sub_eq _ _ hub (by omega)
  have hcast : u64AsI64 (L - (L / ENCRYPTED_CHUNK_SIZE + 1) * TAG_SIZE) =
      ((L - (L / ENCRYPTED_CHUNK_SIZE + 1) * TAG_SIZE : Nat) : Int) :=
    u64AsI64_eq _ (by omega)
  have htlt : target < CHUNK_SIZE := by
    have hc : CHUNK_SIZE = 65536 := rfl
    rw [hc] at hsame ⊢
    omega
  have hwrap : i64Wrap (((L - (L / ENCRYPTED_CHUNK_SIZE + 1) * TAG_SIZE : Nat) : Int) + off)
      = (target : Int) := by
    rw [htarget]
    refine i64Wrap_eq_self _ ?_ ?_
    · have := Int.natCast_nonneg target
      omega
    · have hc : CHUNK_SIZE = 65536 := rfl
      rw [hc] at htlt
      have h63 : (65536 : Int) < 2 ^ 63 := by norm_num
      have : (target : Int) < 65536 := by exact_mod_cast htlt
      omega
  simp only [seek, resolveStart, freshReader, hL, hmod, Nat.sub_zero, Nat.zero_div,
    hsub1, hsub2, hcast, hwrap]
  rw [if_pos (by exact_mod_cast Int.natCast_nonneg target)]
  simp [hsame]

/-- Fidelity check for the underflowing region of the `fromEnd` arm: on a
container shorter than the charged tag bytes (here 10 bytes), the `u64`
subtraction wraps, its `i64` reinterpretation is negative, and `seek` reports
the cannot-seek error — it does not succeed with a truncated-to-zero offset. -/
theorem seek_fromEnd_underflow (A : Aead) (src : List Nat) (h : src.length = 10) :
    seek A (freshReader src) (.fromEnd 0) = .error "cannot seek before the start" := by
  have hE : ENCRYPTED_CHUNK_SIZE = 65552 := rfl
  have hT : TAG_SIZE = 16 := rfl
  have e1 : (10 : Nat) % 2 ^ 64 = 10 := by norm_num
  have e2 : (10 : Nat) / ENCRYPTED_CHUNK_SIZE = 0 := by
    rw [hE]
  have e3 : u64Sub 10 0 = 10 := by
    rw [u64Sub_eq 10 0 (by omega) (by norm_num), Nat.sub_zero]
  have e4 : u64Sub 10 ((0 + 1) * TAG_SIZE) = 18446744073709551610 := by
    rw [hT]
    simp only [u64Sub]
    have hc : ((10 : Nat) : Int) - (((0 + 1) * 16 : Nat) : Int) = -6 := by norm_num
    rw [hc]
    have hm : (-6 : Int) % (2 ^ 64 : Int) = 18446744073709551610 := by decide
    rw [hm]
    rfl
  have e5 : u64AsI64 18446744073709551610 = -6 := by
    have hm : (18446744073709551610 : Nat) % 2 ^ 64 = 18446744073709551610 := by norm_num
    have hge : ¬ ((18446744073709551610 : Nat) % 2 ^ 64 < 2 ^ 63) := by
      rw [hm]
      norm_num
    simp only [u64AsI64, hm] at hge ⊢
    rw [if_neg hge]
    norm_num
  have e6 : i64Wrap (-6 + 0) = -6 := by
    refine (by norm_num : (-6 : Int) + 0 = -6) ▸ i64Wrap_eq_self (-6) (by norm_num) (by norm_num)
  simp only [seek, resolveStart, freshReader, h, e1, e2, e3, e4, e5, e6, Nat.sub_zero]
  rw [if_neg (by norm_num)]

/-- Plaintext written for the C7 scenario: one full chunk plus one byte. -/
def c7data : List Nat := List.replicate (CHUNK_SIZE + 1) 7

/-- Ciphertext the writer emits for `c7data`: a non-final full chunk at
position 0 and a final one-byte chunk at position `COUNTER_INCR`. -/
def c7ct : List Nat :=
  toyAead.enc (nonceBytes 0 false) (List.replicate CHUNK_SIZE 7) ++
    toyAead.enc (nonceBytes COUNTER_INCR true) (List.replicate 1 7)

/-- Reader state after seeking a fresh reader over `c7ct` to offset
`CHUNK_SIZE`: the source cursor is on the second chunk, but the cipher
position is still 0 because the counter reset is commented out. -/
def c7afterSeek : ReaderState :=
  { streamPos := 0, src := c7ct, srcPos := 1 * ENCRYPTED_CHUNK_SIZE,
    start := .explicit 0, curPlaintextPos := 1 * CHUNK_SIZE, chunk := none }

/-- C7 (code bug): seeking across a chunk boundary drops the resident chunk,
repositions the source to `start + chunk_index * 65552` and resets the
plaintext offset — but the cipher counter reset is commented out in the
source (`TODO: Fix once aead::stream is seekable`), so the next read decrypts
the target chunk at the stale position and fails with a data-integrity error
instead of returning the plaintext at the target offset.  The in-repo test
`stream_seeking` exercises exactly this path and fails. -/
theorem claim_c7_seek_skips_counter_reset :
    encryptAll toyAead c7data = some c7ct ∧
    seek toyAead (freshReader c7ct) (.fromStart CHUNK_SIZE) =
      .ok (CHUNK_SIZE, c7afterSeek) ∧
    readOnce toyAead c7afterSeek 1 = .error "last chunk has been processed" := by
  have hI : COUNTER_INCR = 256 := rfl
  have hC : CHUNK_SIZE = 65536 := rfl
  have hE : ENCRYPTED_CHUNK_SIZE = 65552 := rfl
  have hM : COUNTER_MAX = 0xffffffffffffffffffffff00 := rfl
  have hT : TAG_SIZE = 16 := rfl
  have hct0len : (toyAead.enc (nonceBytes 0 false)
      (List.replicate CHUNK_SIZE 7)).length = ENCRYPTED_CHUNK_SIZE := by
    rw [toyAead.enc_length _ _ (nonceBytes_length 0 false), List.length_replicate]
    rfl
  have hctLlen : (toyAead.enc (nonceBytes COUNTER_INCR true)
      (List.replicate 1 7)).length = 1 + TAG_SIZE := by
    rw [toyAead.enc_length _ _ (nonceBytes_length COUNTER_INCR true), List.length_replicate]
  refine ⟨?_, ?_, ?_⟩
  · show encryptAllFrom toyAead 0 [] c7data = some c7ct
    have hlen : c7data.length = CHUNK_SIZE + 1 := List.length_replicate _ _
    have hb : 0 + COUNTER_INCR * (c7data.length / CHUNK_SIZE) ≤ COUNTER_MAX := by
      rw [hlen, hI, hC, hM]
      norm_num
    rw [encryptAllFrom_eq toyAead c7data.length c7data (le_refl _) 0 [] hb]
    have hbig : CHUNK_SIZE < c7data.length := by
      rw [hlen]
      omega
    rw [streamCiphertext_step toyAead 0 c7data hbig]
    have hmin : min CHUNK_SIZE (CHUNK_SIZE + 1) = CHUNK_SIZE := by omega
    have hsub : CHUNK_SIZE + 1 - CHUNK_SIZE = 1 := by omega
    have htake : c7data.take CHUNK_SIZE = List.replicate CHUNK_SIZE 7 := by
      rw [c7data, List.take_replicate, hmin]
    have hdrop : c7data.drop CHUNK_SIZE = List.replicate 1 7 := by
      rw [c7data, List.drop_replicate, hsub]
    rw [htake, hdrop,
      streamCiphertext_small toyAead (0 + COUNTER_INCR) (List.replicate 1 7)
        (by rw [List.length_replicate, hC]; omega)]
    rw [c7ct]
    simp
  · have h := seek_fromStart_fresh toyAead c7ct CHUNK_SIZE 1
      (by rw [hC]) one_ne_zero (by simp)
    rw [c7afterSeek]
    exact h
  · rw [readOnce]
    have hpull : ((c7afterSeek.src.drop c7afterSeek.srcPos).take ENCRYPTED_CHUNK_SIZE)
        = toyAead.enc (nonceBytes COUNTER_INCR true) (List.replicate 1 7) := by
      show ((c7ct.drop (1 * ENCRYPTED_CHUNK_SIZE)).take ENCRYPTED_CHUNK_SIZE) = _
      rw [one_mul, c7ct, List.drop_left' hct0len,
        List.take_of_length_le (by rw [hctLlen, hE, hT]; omega)]
    have hchunk : decrypt_chunk toyAead c7afterSeek.streamPos
        ((c7afterSeek.src.drop c7afterSeek.srcPos).take ENCRYPTED_CHUNK_SIZE) =
        .error "last chunk has been processed" := by
      rw [hpull]
      show decrypt_chunk toyAead 0 _ = _
      rw [decrypt_chunk]
      have hne : toyAead.enc (nonceBytes COUNTER_INCR true) (List.replicate 1 7) ≠ [] := by
        intro h
        have := congrArg List.length h
        rw [hctLlen] at this
        simp [hT] at this
      rw [if_neg hne]
      have hlast : (toyAead.enc (nonceBytes COUNTER_INCR true)
          (List.replicate 1 7)).length < ENCRYPTED_CHUNK_SIZE := by
        rw [hctLlen, hE, hT]
        omega
      have hnne : nonceBytes COUNTER_INCR true ≠ nonceBytes 0 true := by
        rw [nonceBytes_eq COUNTER_INCR true (by rw [hI]) (by rw [hI, hM]; norm_num),
          nonceBytes_eq 0 true rfl (Nat.zero_le _)]
        rw [hI]
        decide
      have hdec : decrypt_last toyAead 0 (toyAead.enc (nonceBytes COUNTER_INCR true)
          (List.replicate 1 7)) = none := by
        rw [decrypt_last_eq toyAead 0 _ (Nat.zero_le _)]
        exact toyAead.dec_wrong_nonce _ _ _ (nonceBytes_length COUNTER_INCR true)
          (nonceBytes_length 0 true) hnne
      simp only [if_pos hlast, hdec]
    rw [readChunkIfNeeded]
    have hnone : c7afterSeek.chunk = none := rfl
    simp only [hnone, hchunk]

/-- Ciphertext for the C8 counterexample: a single exactly-full final chunk
(the writer output for a chunk-aligned 65536-byte plaintext). -/
def c8ct : List Nat := toyAead.enc (nonceBytes 0 true) (List.replicate CHUNK_SIZE 5)

/-- C8 counterexample: on a container of exactly 65552 bytes (start offset 0),
seek-from-end computes plaintext length `65520 = ct_len - (ct_len/65552 + 1)*16`,
which differs from the claim's `ct_len - start - (ceil of ct_len/65552)*16 =
65536` — the code's chunk count is one too many on exact multiples. -/
theorem claim_c8_counterexample :
    seek toyAead (freshReader c8ct) (.fromEnd 0) =
      .ok (65520,
        { streamPos := 0, src := c8ct, srcPos := 0, start := .explicit 0,
          curPlaintextPos := 65520, chunk := none }) ∧
    (65520 : Nat) ≠
      c8ct.length - 0 - ((c8ct.length + ENCRYPTED_CHUNK_SIZE - 1) / ENCRYPTED_CHUNK_SIZE) *
        TAG_SIZE := by
  have hE : ENCRYPTED_CHUNK_SIZE = 65552 := rfl
  have hT : TAG_SIZE = 16 := rfl
  have hC : CHUNK_SIZE = 65536 := rfl
  have hlen : c8ct.length = 65552 := by
    rw [c8ct, toyAead.enc_length _ _ (nonceBytes_length 0 true), List.length_replicate]
    rfl
  constructor
  · exact seek_fromEnd_eval_fresh toyAead c8ct 0 65520 65552 hlen (by norm_num)
      (by rw [hE, hT]; norm_num) (by rw [hE, hT]; norm_num) (by rw [hC])
  · rw [hlen, hE, hT]
    norm_num

/-- C8 amended: the claim's seek-from-end computation — total plaintext length
= container length, minus the stream start, minus a tag overhead of
`(ceil of ct_len/65552) * 16`, then the requested offset applied — holds
whenever the container length is not an exact multiple of 65552; in general
the code charges `(ct_len/65552 + 1)` tags, which coincides with the ceiling
exactly off multiples.  Stated for a fresh reader (start 0) with the target in
the first chunk, making the repositioning tail pure cursor movement. -/
theorem claim_c8_seek_from_end (A : Aead) (src : List Nat) (off : Int) (target : Nat)
    (hnm : src.length % ENCRYPTED_CHUNK_SIZE ≠ 0)
    (hlt : src.length < 2 ^ 63)
    (hub : ((src.length + ENCRYPTED_CHUNK_SIZE - 1) / ENCRYPTED_CHUNK_SIZE) * TAG_SIZE ≤
      src.length)
    (htarget : ((src.length - 0 -
      ((src.length + ENCRYPTED_CHUNK_SIZE - 1) / ENCRYPTED_CHUNK_SIZE) * TAG_SIZE : Nat) :
        Int) + off = (target : Int))
    (hsame : target / CHUNK_SIZE = 0) :
    seek A (freshReader src) (.fromEnd off) =
      .ok (target,
        { streamPos := 0, src := src, srcPos := 0, start := .explicit 0,
          curPlaintextPos := target, chunk := none }) := by
  have hE : ENCRYPTED_CHUNK_SIZE = 65552 := rfl
  have hceil : (src.length + ENCRYPTED_CHUNK_SIZE - 1) / ENCRYPTED_CHUNK_SIZE =
      src.length / ENCRYPTED_CHUNK_SIZE + 1 := by
    have h2 : src.length % ENCRYPTED_CHUNK_SIZE ≠ 0 := hnm
    rw [hE] at h2 ⊢
    omega
  rw [hceil] at htarget hub
  exact seek_fromEnd_eval_fresh A src off target src.length rfl hlt hub
    (by rw [Nat.sub_zero] at htarget; exact htarget) hsame

/-- Witness for the amended C8: a 116-byte container (100-byte plaintext),
seeking to 20 bytes before the end lands at plaintext offset 80. -/
theorem claim_c8_seek_from_end_witness :
    seek toyAead (freshReader (toyAead.enc (nonceBytes 0 true) (List.replicate 100 9)))
        (.fromEnd (-20)) =
      .ok (80,
        { streamPos := 0,
          src := toyAead.enc (nonceBytes 0 true) (List.replicate 100 9), srcPos := 0,
          start := .explicit 0, curPlaintextPos := 80, chunk := none }) := by
  have hlen : (toyAead.enc (nonceBytes 0 true) (List.replicate 100 9)).length = 116 := by
    rw [toyAead.enc_length _ _ (nonceBytes_length 0 true), List.length_replicate]
    rfl
  have hE : ENCRYPTED_CHUNK_SIZE = 65552 := rfl
  have hT : TAG_SIZE = 16 := rfl
  have hC : CHUNK_SIZE = 65536 := rfl
  exact claim_c8_seek_from_end toyAead _ (-20) 80
    (by rw [hlen, hE]; norm_num)
    (by rw [hlen]; norm_num)
    (by rw [hlen, hE, hT]; norm_num)
    (by rw [hlen, hE, hT]; norm_num)
    (by rw [hC])


/-!
## DecryptionOrchestrator: obtain_payload_key

`BaseDecryptor::obtain_payload_key` (decryptor.rs lines 27-41) over the V1
header: iterate the recipient stanzas with `Iterator::find_map`, default the
result to the no-matching-keys error, then derive the payload key.  Stanzas,
file keys and payload keys are opaque type parameters; the derivation
`v1_payload_key` is an external collaborator passed as `kdf`.
-/

/-- The slice of the `Error` enum the orchestrator claims need: the
no-matching-keys variant versus everything else. -/
inductive KeyError where
  | noMatchingKeys
  | other (code : Nat)
deriving DecidableEq, Repr

/-- `BaseDecryptor::obtain_payload_key`: `find_map` over the stanzas in header
order, `unwrap_or(Err(NoMatchingKeys))`, `and_then(v1_payload_key ...)`. -/
def obtain_payload_key {S K P : Type} (stanzas : List S)
    (filter : S → Option (Except KeyError K)) (kdf : K → Except KeyError P) :
    Except KeyError P :=
  ((stanzas.findSome? filter).getD (.error .noMatchingKeys)).bind kdf

/-- C9 counterexample: with two stanzas where the first is recognized by the
strategy but fails to unwrap and the second unwraps successfully,
`obtain_payload_key` returns the first stanza's error — not the payload key
derived from the second (first successfully unwrapping) stanza. -/
theorem claim_c9_counterexample :
    obtain_payload_key [1, 2]
        (fun s => if s = 1 then some (.error (.other 0))
                  else if s = 2 then some (.ok 5) else none)
        (fun k => (.ok k : Except KeyError Nat)) = .error (.other 0) ∧
    (if (2 : Nat) = 1 then some (Except.error (KeyError.other 0))
     else if (2 : Nat) = 2 then some (.ok 5) else none) = some (Except.ok (5 : Nat)) ∧
    (Except.error (KeyError.other 0) ≠ (Except.ok 5 : Except KeyError Nat)) := by
  refine ⟨rfl, rfl, ?_⟩
  intro h
  exact Except.noConfusion h

/-- C9 amended: `obtain_payload_key` applies the strategy to the stanzas in
header order and commits to the FIRST stanza for which the strategy returns a
result: a successful unwrap feeds the key derivation, while an unwrap error
from that stanza is returned as is (later stanzas are not tried).  If the
strategy returns no result for any stanza, it fails with the no-matching-keys
error. -/
theorem claim_c9_first_match {S K P : Type} (stanzas : List S)
    (filter : S → Option (Except KeyError K)) (kdf : K → Except KeyError P) :
    ((∀ s ∈ stanzas, filter s = none) →
      obtain_payload_key stanzas filter kdf = .error .noMatchingKeys) ∧
    (∀ pre s post, stanzas = pre ++ s :: post →
      (∀ t ∈ pre, filter t = none) →
      ∀ r, filter s = some r →
        obtain_payload_key stanzas filter kdf = r.bind kdf) := by
  constructor
  · intro hall
    have hnone : stanzas.findSome? filter = none := by
      induction stanzas with
      | nil => rfl
      | cons a l ih =>
        have ha : filter a = none := hall a (by simp)
        have hl : ∀ s ∈ l, filter s = none := fun s hs => hall s (by simp [hs])
        simp [List.findSome?, ha]
        exact hl
    rw [obtain_payload_key, hnone]
    rfl
  · intro pre s post hsplit hpre r hr
    subst hsplit
    have hfind : (pre ++ s :: post).findSome? filter = some r := by
      induction pre with
      | nil =>
        simp [List.findSome?, hr]
      | cons a l ih =>
        have ha : filter a = none := hpre a (by simp)
        have hl : ∀ t ∈ l, filter t = none := fun t ht => hpre t (by simp [ht])
        simp [List.findSome?, ha]
        exact ih hl
    rw [obtain_payload_key, hfind]
    rfl

/-- Witness for the amended C9: an all-unrecognized header yields the
no-matching-keys error, and a header whose second stanza is the first
recognized one derives the payload key from it. -/
theorem claim_c9_first_match_witness :
    obtain_payload_key [3, 4] (fun _ => (none : Option (Except KeyError Nat)))
        (fun k => (.ok k : Except KeyError Nat)) = .error .noMatchingKeys ∧
    obtain_payload_key [3, 4] (fun s => if s = 4 then some (.ok 9) else none)
        (fun k => (.ok k : Except KeyError Nat)) = .ok 9 := by
  constructor
  · exact (claim_c9_first_match [3, 4] _ _).1 (fun s _ => rfl)
  · have h := (claim_c9_first_match [3, 4]
        (fun s => if s = 4 then some (.ok 9) else none)
        (fun k => (.ok k : Except KeyError Nat))).2 [3] 4 [] rfl
      (by intro t ht
          simp only [List.mem_singleton] at ht
          subst ht
          rfl)
      (.ok 9) (by simp)
    exact h

end AgeStream
